import Mathlib

/-!
# Verification of the Bachelier-model notebook

A shallow embedding of `bachelier_model/Bachelier Model 1.ipynb`:

* the closed-form pricing functions `call_price`, `put_price`, `bachelier`
  and the residual builder `call_objective_function`;
* the damped, vectorised Newton solver `newtons_method`.

Real-number primitives (`np.exp`, `np.log`, `np.sqrt`, `norm.cdf`,
`norm.pdf`) are abstracted into a bundle `Prims` of rational functions, so
every definition stays executable; the algebraic structure of each formula
is translated verbatim from the notebook.  Floating-point rounding is
idealised into exact `ℚ` arithmetic.

The solver operates on a NumPy value that is either a scalar or an array
(`np.isscalar` branches inside the loop), so the two runtime shapes are
embedded as two instantiations, `newtons_method_scalar` and
`newtons_method_vec`, of one generic loop `nmGo`.  Paths on which the
Python code raises (indexing a scalar in the damping line, the unbound
`function_value` when the loop body never runs, the infinity norm of an
empty array) are represented by explicit `NMErr` error results.
-/

/-- Bundle of real-analytic primitives used by the notebook
(`np.exp`, `np.log`, `np.sqrt`, `norm.cdf`, `norm.pdf`), kept abstract so
the formulas remain executable over `ℚ`. -/
structure Prims where
  exp : ℚ → ℚ
  log : ℚ → ℚ
  sqrt : ℚ → ℚ
  cdf : ℚ → ℚ
  pdf : ℚ → ℚ

/-- A concrete primitive bundle (every primitive the identity), used to
evaluate the embedded formulas on concrete rational inputs. -/
def idPrims : Prims := ⟨id, id, id, id, id⟩

/-- `call_price(sigma, S, K, r, t)` from the notebook: returns the triple
`(C, d1, d2)` with
`d1 = (1/σ)·(1/√t)·(ln(S/K) + (r + σ²/2)·t)`, `d2 = d1 − σ·√t`,
`C = S·Φ(d1) − Φ(d2)·K·e^{−rt}`. -/
def call_price (pr : Prims) (sigma S K r t : ℚ) : ℚ × ℚ × ℚ :=
  let d1 := 1 / sigma * (1 / pr.sqrt t) * (pr.log (S / K) + (r + sigma ^ 2 / 2) * t)
  let d2 := d1 - sigma * pr.sqrt t
  let C := S * pr.cdf d1 - pr.cdf d2 * K * pr.exp (-r * t)
  (C, d1, d2)

/-- `put_price(sigma, S, K, r, t)` from the notebook:
`P = −S·Φ(−d1) + Φ(−d2)·K·e^{−rt}`. -/
def put_price (pr : Prims) (sigma S K r t : ℚ) : ℚ :=
  let d1 := 1 / sigma * (1 / pr.sqrt t) * (pr.log (S / K) + (r + sigma ^ 2 / 2) * t)
  let d2 := d1 - sigma * pr.sqrt t
  let P := -(S * pr.cdf (-d1)) + pr.cdf (-d2) * K * pr.exp (-r * t)
  P

/-- `call_objective_function(sigma, args)` from the notebook.  The source
returns `call_price(sigma, S, K, r, t) - price`, but `call_price` returns
the *tuple* `(C, d1, d2)`; NumPy coerces that tuple to a length-3 array and
broadcasts the subtraction (with a plain-float `price` the same line raises
`TypeError`), so the embedded result is the componentwise difference, not
the scalar residual. -/
def call_objective_function (pr : Prims) (sigma : ℚ) (args : ℚ × ℚ × ℚ × ℚ × ℚ) :
    ℚ × ℚ × ℚ :=
  let S := args.1
  let K := args.2.1
  let r := args.2.2.1
  let t := args.2.2.2.1
  let price := args.2.2.2.2
  let res := call_price pr sigma S K r t
  (res.1 - price, res.2.1 - price, res.2.2 - price)

/-- `bachelier(sigma, S, K, r, t)` from the notebook:
`d = (S·e^{rt} − K)/√(σ²/(2r)·(e^{2rt}−1))`,
`C = e^{−rt}·(S·e^{rt}−K)·Φ(d) + e^{−rt}·√(σ²/(2r)·(e^{2rt}−1))·φ(d)`. -/
def bachelier (pr : Prims) (sigma S K r t : ℚ) : ℚ :=
  let d := (S * pr.exp (r * t) - K) /
    pr.sqrt (sigma ^ 2 / (2 * r) * (pr.exp (2 * r * t) - 1))
  pr.exp (-r * t) * (S * pr.exp (r * t) - K) * pr.cdf d +
    pr.exp (-r * t) * pr.sqrt (sigma ^ 2 / (2 * r) * (pr.exp (2 * r * t) - 1)) * pr.pdf d

/-- The spec's standardized distance `d1 = [ln(S/K) + (r + σ²/2)t] / (σ√t)`,
written from the spec's words for comparison with `call_price`. -/
def d1_spec (pr : Prims) (sigma S K r t : ℚ) : ℚ :=
  (pr.log (S / K) + (r + sigma ^ 2 / 2) * t) / (sigma * pr.sqrt t)

/-- The spec's `d2 = d1 − σ√t`. -/
def d2_spec (pr : Prims) (sigma S K r t : ℚ) : ℚ :=
  d1_spec pr sigma S K r t - sigma * pr.sqrt t

/-- The spec's log-normal call `C = S·Φ(d1) − K·e^{−rt}·Φ(d2)`. -/
def call_price_spec (pr : Prims) (sigma S K r t : ℚ) : ℚ :=
  S * pr.cdf (d1_spec pr sigma S K r t) -
    K * pr.exp (-r * t) * pr.cdf (d2_spec pr sigma S K r t)

/-- The spec's log-normal put `P = K·e^{−rt}·Φ(−d2) − S·Φ(−d1)`. -/
def put_price_spec (pr : Prims) (sigma S K r t : ℚ) : ℚ :=
  K * pr.exp (-r * t) * pr.cdf (-(d2_spec pr sigma S K r t)) -
    S * pr.cdf (-(d1_spec pr sigma S K r t))

/-- The spec's arithmetic-model scale `v = √(σ²/(2r)·(e^{2rt}−1))`. -/
def bachelier_v_spec (pr : Prims) (sigma r t : ℚ) : ℚ :=
  pr.sqrt (sigma ^ 2 / (2 * r) * (pr.exp (2 * r * t) - 1))

/-- The spec's arithmetic-model distance `d = (S·e^{rt} − K)/v`. -/
def bachelier_d_spec (pr : Prims) (sigma S K r t : ℚ) : ℚ :=
  (S * pr.exp (r * t) - K) / bachelier_v_spec pr sigma r t

/-- The spec's arithmetic call `C = e^{−rt}[(S·e^{rt}−K)·Φ(d) + v·φ(d)]`. -/
def bachelier_spec (pr : Prims) (sigma S K r t : ℚ) : ℚ :=
  pr.exp (-r * t) * ((S * pr.exp (r * t) - K) * pr.cdf (bachelier_d_spec pr sigma S K r t) +
    bachelier_v_spec pr sigma r t * pr.pdf (bachelier_d_spec pr sigma S K r t))

/-- The exceptions `newtons_method` can raise: `TypeError` from `R[ind]`
when `R` is a scalar, `NameError` from returning `function_value` when the
loop body never ran, `ValueError` from `np.linalg.norm` on an empty array,
plus the (unreachable, see `nmGo_ne_error_of`) fuel sentinel of the
embedding. -/
inductive NMErr where
  | typeErrorScalarIndex : NMErr
  | nameErrorNoValue : NMErr
  | valueErrorEmptyNorm : NMErr
  | outOfFuel : NMErr
deriving DecidableEq

/-- The values one loop-body pass produces: the advanced estimate `R`, the
convergence metric `eps`, and the residual/derivative pair `fv`, `dv`. -/
structure IterOut (α : Type) where
  R : α
  eps : ℚ
  fv : α
  dv : α
deriving DecidableEq

/-- Result of `newtons_method`: the converged 7-tuple
`(R, count, epsilon, function_value, function_derivative, f_return,
fprime_return)`, the aborted pair `(R, count)` from the runaway-loop
branch, or a raised exception. -/
inductive NMResult (α : Type) where
  | done : α → ℕ → ℚ → α → α → List α → List α → NMResult α
  | aborted : α → ℕ → NMResult α
  | error : NMErr → NMResult α
deriving DecidableEq

/-- One loop-body pass of `newtons_method` on a scalar state.  With a
scalar `R`, `np.where(dv <= 0)` yields the index array `[0]` whenever
`dv ≤ 0`, and the damping line `R[ind] = R[ind]*0.5 + R[ind]` then indexes
into a scalar and raises (`dv = 0` raises on the division already); with
`dv > 0` the pass performs the undamped update `R = -fv/dv + R` and
computes `epsilon = |(R - old_R)/old_R|`. -/
def scalarIterate (f fprime : ℚ → ℚ) (R : ℚ) : Except NMErr (IterOut ℚ) :=
  let fv := f R
  let dv := fprime R
  if dv ≤ 0 then Except.error NMErr.typeErrorScalarIndex
  else
    let R2 := -fv / dv + R
    Except.ok ⟨R2, |(R2 - R) / R|, fv, dv⟩

/-- `np.linalg.norm(l, np.Inf)` on a (nonempty) 1-D array:
the maximum of the absolute values. -/
def infNorm (l : List ℚ) : ℚ :=
  l.foldr (fun x m => max |x| m) 0

/-- One loop-body pass of `newtons_method` on a vector state: the raw
elementwise Newton step `R = -fv/dv + R`, then the damping assignment
`R[ind] = R[ind]*0.5 + R[ind]` on the indices `ind = np.where(dv <= 0)`,
then `epsilon = np.linalg.norm(R - old_R, np.Inf)` (which raises on an
empty array). -/
def vecIterate (f fprime : List ℚ → List ℚ) (R : List ℚ) :
    Except NMErr (IterOut (List ℚ)) :=
  let fv := f R
  let dv := fprime R
  let step := List.zipWith (fun a b => -a / b) fv dv
  let Rraw := List.zipWith (fun a b => a + b) step R
  let R2 := List.zipWith (fun dvi ri => if dvi ≤ 0 then ri * (1 / 2) + ri else ri) dv Rraw
  let diffs := List.zipWith (fun a b => a - b) R2 R
  if diffs.isEmpty then Except.error NMErr.valueErrorEmptyNorm
  else Except.ok ⟨R2, infNorm diffs, fv, dv⟩

/-- The `while epsilon >= tol` loop of `newtons_method`, generic over the
state shape via the loop-body pass `iter`.  Mirrors the source order: exit
on `epsilon < tol` (returning the 7-tuple, whose `function_value` /
`function_derivative` are unbound — `NameError` — if no iteration ran),
else increment the counter and return the aborted pair once it reaches
`max_iter`, else run the body.  `fuel` only bounds the recursion; started
at `max_iter` it never runs out (`nmGo_ne_error_of`). -/
def nmGo {α : Type} (iter : α → Except NMErr (IterOut α)) (maxIter : ℕ) (tol : ℚ)
    (debug : Bool) : ℕ → α → ℕ → ℚ → Option (α × α) → List α → List α → NMResult α
  | 0, R, count, eps, last, ftr, dtr =>
    if eps < tol then
      match last with
      | none => NMResult.error NMErr.nameErrorNoValue
      | some (fv, dv) => NMResult.done R count eps fv dv ftr.reverse dtr.reverse
    else if maxIter ≤ count + 1 then NMResult.aborted R (count + 1)
    else NMResult.error NMErr.outOfFuel
  | fuel + 1, R, count, eps, last, ftr, dtr =>
    if eps < tol then
      match last with
      | none => NMResult.error NMErr.nameErrorNoValue
      | some (fv, dv) => NMResult.done R count eps fv dv ftr.reverse dtr.reverse
    else if maxIter ≤ count + 1 then NMResult.aborted R (count + 1)
    else
      match iter R with
      | Except.error e => NMResult.error e
      | Except.ok out =>
        nmGo iter maxIter tol debug fuel out.R (count + 1) out.eps
          (some (out.fv, out.dv))
          (if debug then out.fv :: ftr else ftr)
          (if debug then out.dv :: dtr else dtr)

/-- `newtons_method` entry: `count = 0`, `epsilon = 1`, empty traces, no
residual/derivative computed yet. -/
def newtonsMethod {α : Type} (iter : α → Except NMErr (IterOut α)) (R0 : α)
    (maxIter : ℕ) (tol : ℚ) (debug : Bool) : NMResult α :=
  nmGo iter maxIter tol debug maxIter R0 0 1 none [] []

/-- `newtons_method(f, fprime, R, max_iter, tol, debug)` on a scalar
initial guess (the `np.isscalar(R)` branch of the source). -/
def newtons_method_scalar (f fprime : ℚ → ℚ) (R0 : ℚ) (maxIter : ℕ) (tol : ℚ)
    (debug : Bool) : NMResult ℚ :=
  newtonsMethod (scalarIterate f fprime) R0 maxIter tol debug

/-- `newtons_method(f, fprime, R, max_iter, tol, debug)` on a vector
initial guess (the array branch of the source). -/
def newtons_method_vec (f fprime : List ℚ → List ℚ) (R0 : List ℚ) (maxIter : ℕ)
    (tol : ℚ) (debug : Bool) : NMResult (List ℚ) :=
  newtonsMethod (vecIterate f fprime) R0 maxIter tol debug

/-- The undamped scalar Newton iterates `R_{n+1} = -f(R_n)/f'(R_n) + R_n`,
the closed-form description of the scalar solver's trajectory. -/
def newtonSeq (f fprime : ℚ → ℚ) (R0 : ℚ) : ℕ → ℚ
  | 0 => R0
  | n + 1 =>
    -f (newtonSeq f fprime R0 n) / fprime (newtonSeq f fprime R0 n) +
      newtonSeq f fprime R0 n

/-- The damped vector update of one `newtons_method` loop body as a total
function: the raw elementwise Newton step `-fv/dv + R` followed by the
`R[ind] = R[ind]*0.5 + R[ind]` overwrite at the indices with non-positive
derivative. -/
def vecStep (f fprime : List ℚ → List ℚ) (R : List ℚ) : List ℚ :=
  List.zipWith (fun dvi ri => if dvi ≤ 0 then ri * (1 / 2) + ri else ri)
    (fprime R)
    (List.zipWith (fun a b => a + b)
      (List.zipWith (fun a b => -a / b) (f R) (fprime R)) R)

/-- The vector solver's trajectory: iterates of the damped step, the
closed-form description of the batch solver's state after n iterations. -/
def vecSeq (f fprime : List ℚ → List ℚ) (R0 : List ℚ) : ℕ → List ℚ
  | 0 => R0
  | n + 1 => vecStep f fprime (vecSeq f fprime R0 n)

/-! ## Pricing-formula claims -/

/-- C7: for every σ > 0, t > 0 and positive S, K, `call_price` returns the
triple `(C, d1, d2)` prescribed by the spec's log-normal formulas
`C = S·Φ(d1) − K·e^{−rt}·Φ(d2)`, `d1 = [ln(S/K) + (r + σ²/2)t]/(σ√t)`,
`d2 = d1 − σ√t`, and `put_price` returns the spec's log-normal put
`P = K·e^{−rt}·Φ(−d2) − S·Φ(−d1)`. -/
theorem lognormal_price_formulas (pr : Prims) (sigma S K r t : ℚ)
    (hsigma : 0 < sigma) (ht : 0 < t) (hS : 0 < S) (hK : 0 < K) :
    call_price pr sigma S K r t =
      (call_price_spec pr sigma S K r t, d1_spec pr sigma S K r t,
        d2_spec pr sigma S K r t) ∧
    put_price pr sigma S K r t = put_price_spec pr sigma S K r t := by
  have hd1 : 1 / sigma * (1 / pr.sqrt t) * (pr.log (S / K) + (r + sigma ^ 2 / 2) * t)
      = d1_spec pr sigma S K r t := by
    unfold d1_spec
    ring
  constructor
  · simp only [call_price, call_price_spec, d2_spec]
    rw [hd1]
    refine Prod.ext ?_ rfl
    simp only
    ring
  · simp only [put_price, put_price_spec, d2_spec]
    rw [hd1]
    ring

/-- Witness for C7, at σ = S = K = t = 1, r = 0 over the identity
primitive bundle. -/
theorem lognormal_price_formulas_witness :
    (0 : ℚ) < 1 ∧
    (call_price idPrims 1 1 1 0 1 =
      (call_price_spec idPrims 1 1 1 0 1, d1_spec idPrims 1 1 1 0 1,
        d2_spec idPrims 1 1 1 0 1) ∧
    put_price idPrims 1 1 1 0 1 = put_price_spec idPrims 1 1 1 0 1) :=
  ⟨by norm_num,
    lognormal_price_formulas idPrims 1 1 1 0 1 (by norm_num) (by norm_num)
      (by norm_num) (by norm_num)⟩

/-- C8: for every σ > 0, t > 0, r ≠ 0 and positive S, K, `bachelier`
returns the spec's arithmetic-model call
`C = e^{−rt}[(S·e^{rt}−K)·Φ(d) + v·φ(d)]` with
`v = √(σ²/(2r)·(e^{2rt}−1))` and `d = (S·e^{rt} − K)/v`. -/
theorem bachelier_formula (pr : Prims) (sigma S K r t : ℚ)
    (hsigma : 0 < sigma) (ht : 0 < t) (hr : r ≠ 0) (hS : 0 < S) (hK : 0 < K) :
    bachelier pr sigma S K r t = bachelier_spec pr sigma S K r t := by
  simp only [bachelier, bachelier_spec, bachelier_d_spec, bachelier_v_spec]
  ring

/-- Witness for C8, at σ = S = K = r = t = 1 over the identity primitive
bundle. -/
theorem bachelier_formula_witness :
    (0 : ℚ) < 1 ∧ (1 : ℚ) ≠ 0 ∧
    bachelier idPrims 1 1 1 1 1 = bachelier_spec idPrims 1 1 1 1 1 :=
  ⟨by norm_num, by norm_num,
    bachelier_formula idPrims 1 1 1 1 1 (by norm_num) (by norm_num)
      (by norm_num) (by norm_num) (by norm_num)⟩

/-- The log-normal half of the spec's put–call parity law: whenever the
cdf primitive satisfies the standard-normal symmetry `Φ(−x) = 1 − Φ(x)`,
the notebook's call and put satisfy `C − P = S − K·e^{−rt}` exactly.  (The
arithmetic model has no direct put evaluation in the notebook, so the
corresponding half of the round-trip law has no referent in the code.) -/
theorem put_call_parity_lognormal (pr : Prims)
    (hsym : ∀ x, pr.cdf (-x) = 1 - pr.cdf x) (sigma S K r t : ℚ) :
    (call_price pr sigma S K r t).1 - put_price pr sigma S K r t
      = S - K * pr.exp (-r * t) := by
  simp only [call_price, put_price, hsym]
  ring

unseal Rat.add Rat.sub Rat.mul Rat.inv in
/-- C5 (code bug): `call_objective_function` does not return the scalar
residual `price(σ) − observedPrice`.  `call_price` returns the tuple
`(C, d1, d2)`, so the subtraction broadcasts over all three components:
at σ = 1, args = (S, K, r, t, price) = (2, 1, 0, 1, 1) over the identity
primitives, where C = 5, d1 = 5/2, d2 = 3/2, the function evaluates to the
3-component value `(C − 1, d1 − 1, d2 − 1) = (4, 3/2, 1/2)` instead of the
scalar `C − 1 = 4`. -/
theorem call_objective_tuple_bug :
    call_objective_function idPrims 1 (2, 1, 0, 1, 1) = (4, 3 / 2, 1 / 2) := by
  decide

/-! ## Solver loop lemmas -/

theorem infNorm_cons (a : ℚ) (l : List ℚ) : infNorm (a :: l) = max |a| (infNorm l) :=
  rfl

theorem abs_le_infNorm {x : ℚ} : ∀ {l : List ℚ}, x ∈ l → |x| ≤ infNorm l := by
  intro l
  induction l with
  | nil => intro h; cases h
  | cons a l ih =>
    intro h
    rw [infNorm_cons]
    rcases List.mem_cons.mp h with rfl | h'
    · exact le_max_left _ _
    · exact (ih h').trans (le_max_right _ _)

theorem infNorm_attained : ∀ {l : List ℚ}, l ≠ [] → ∃ x ∈ l, |x| = infNorm l := by
  intro l
  induction l with
  | nil => intro h; exact absurd rfl h
  | cons a l ih =>
    intro _
    rw [infNorm_cons]
    by_cases hl : l = []
    · subst hl
      refine ⟨a, List.mem_cons_self a [], ?_⟩
      have h0 : infNorm ([] : List ℚ) = 0 := rfl
      rw [h0, max_eq_left (abs_nonneg a)]
    · obtain ⟨x, hxl, hx⟩ := ih hl
      rcases le_total (infNorm l) |a| with hle | hle
      · exact ⟨a, List.mem_cons_self a l, (max_eq_left hle).symm⟩
      · exact ⟨x, List.mem_cons_of_mem a hxl, by rw [max_eq_right hle, hx]⟩

theorem scalarIterate_pos_eq {f fprime : ℚ → ℚ} {R : ℚ} (h : 0 < fprime R) :
    scalarIterate f fprime R =
      Except.ok ⟨-f R / fprime R + R, |(-f R / fprime R + R - R) / R|, f R, fprime R⟩ := by
  simp only [scalarIterate, if_neg (not_le.mpr h)]

theorem scalarIterate_nonpos_eq {f fprime : ℚ → ℚ} {R : ℚ} (h : fprime R ≤ 0) :
    scalarIterate f fprime R = Except.error NMErr.typeErrorScalarIndex := by
  simp only [scalarIterate, if_pos h]

theorem scalarIterate_ok_elim {f fprime : ℚ → ℚ} {R : ℚ} {out : IterOut ℚ}
    (h : scalarIterate f fprime R = Except.ok out) :
    0 < fprime R ∧
    out = ⟨-f R / fprime R + R, |(-f R / fprime R + R - R) / R|, f R, fprime R⟩ := by
  simp only [scalarIterate] at h
  split at h
  · cases h
  · next hdv =>
    injection h with h2
    exact ⟨not_le.mp hdv, h2.symm⟩

theorem vecIterate_ok_elim {f fprime : List ℚ → List ℚ} {R : List ℚ}
    {out : IterOut (List ℚ)}
    (h : vecIterate f fprime R = Except.ok out) :
    out = ⟨List.zipWith (fun dvi ri => if dvi ≤ 0 then ri * (1 / 2) + ri else ri)
        (fprime R)
        (List.zipWith (fun a b => a + b)
          (List.zipWith (fun a b => -a / b) (f R) (fprime R)) R),
      infNorm (List.zipWith (fun a b => a - b)
        (List.zipWith (fun dvi ri => if dvi ≤ 0 then ri * (1 / 2) + ri else ri)
          (fprime R)
          (List.zipWith (fun a b => a + b)
            (List.zipWith (fun a b => -a / b) (f R) (fprime R)) R)) R),
      f R, fprime R⟩ ∧
    List.zipWith (fun a b => a - b)
        (List.zipWith (fun dvi ri => if dvi ≤ 0 then ri * (1 / 2) + ri else ri)
          (fprime R)
          (List.zipWith (fun a b => a + b)
            (List.zipWith (fun a b => -a / b) (f R) (fprime R)) R)) R ≠ [] := by
  simp only [vecIterate] at h
  split at h
  · cases h
  · next hne =>
    injection h with h2
    refine ⟨h2.symm, ?_⟩
    intro hnil
    rw [hnil] at hne
    simp at hne

theorem nmGo_stop_now {α : Type} (iter : α → Except NMErr (IterOut α))
    (maxIter : ℕ) (tol : ℚ) (debug : Bool) (fuel : ℕ) (R : α) (count : ℕ)
    (eps : ℚ) (fv dv : α) (ftr dtr : List α) (hlt : eps < tol) :
    nmGo iter maxIter tol debug fuel R count eps (some (fv, dv)) ftr dtr
      = NMResult.done R count eps fv dv ftr.reverse dtr.reverse := by
  cases fuel with
  | zero => simp only [nmGo, if_pos hlt]
  | succ fuel => simp only [nmGo, if_pos hlt]

theorem nmGo_done_eps_lt {α : Type} {iter : α → Except NMErr (IterOut α)}
    {maxIter : ℕ} {tol : ℚ} {debug : Bool} :
    ∀ {fuel : ℕ} {R : α} {count : ℕ} {eps : ℚ} {last : Option (α × α)}
      {ftr dtr : List α} {R1 : α} {c : ℕ} {e : ℚ} {fv dv : α} {ft dt : List α},
      nmGo iter maxIter tol debug fuel R count eps last ftr dtr
        = NMResult.done R1 c e fv dv ft dt → e < tol := by
  intro fuel
  induction fuel with
  | zero =>
    intro R count eps last ftr dtr R1 c e fv dv ft dt h
    simp only [nmGo] at h
    by_cases hlt : eps < tol
    · rw [if_pos hlt] at h
      rcases last with _ | ⟨fv', dv'⟩
      · cases h
      · injection h with h1 h2 h3
        rw [← h3]
        exact hlt
    · rw [if_neg hlt] at h
      split at h
      · cases h
      · cases h
  | succ fuel ih =>
    intro R count eps last ftr dtr R1 c e fv dv ft dt h
    simp only [nmGo] at h
    by_cases hlt : eps < tol
    · rw [if_pos hlt] at h
      rcases last with _ | ⟨fv', dv'⟩
      · cases h
      · injection h with h1 h2 h3
        rw [← h3]
        exact hlt
    · rw [if_neg hlt] at h
      split at h
      · cases h
      · split at h
        · cases h
        · exact ih h

theorem nmGo_aborts_of {α : Type} {iter : α → Except NMErr (IterOut α)}
    {maxIter : ℕ} {tol : ℚ} {debug : Bool}
    (htotal : ∀ x : α, ∃ out, iter x = Except.ok out)
    (hbig : ∀ x out, iter x = Except.ok out → tol ≤ out.eps) :
    ∀ (fuel : ℕ) (R : α) (count : ℕ) (eps : ℚ) (last : Option (α × α))
      (ftr dtr : List α),
      maxIter ≤ fuel + count → count < maxIter → tol ≤ eps →
      ∃ Rf, nmGo iter maxIter tol debug fuel R count eps last ftr dtr
        = NMResult.aborted Rf maxIter := by
  intro fuel
  induction fuel with
  | zero =>
    intro R count eps last ftr dtr hfc hcm heps
    omega
  | succ fuel ih =>
    intro R count eps last ftr dtr hfc hcm heps
    by_cases habort : maxIter ≤ count + 1
    · refine ⟨R, ?_⟩
      have hcm1 : count + 1 = maxIter := le_antisymm hcm habort
      simp only [nmGo, if_neg (not_lt.mpr heps), if_pos habort]
      rw [hcm1]
    · obtain ⟨out, hout⟩ := htotal R
      have hstep : nmGo iter maxIter tol debug (fuel + 1) R count eps last ftr dtr
          = nmGo iter maxIter tol debug fuel out.R (count + 1) out.eps
              (some (out.fv, out.dv))
              (if debug then out.fv :: ftr else ftr)
              (if debug then out.dv :: dtr else dtr) := by
        simp only [nmGo, if_neg (not_lt.mpr heps), if_neg habort, hout]
      rw [hstep]
      exact ih out.R (count + 1) out.eps (some (out.fv, out.dv)) _ _
        (by omega) (by omega) (hbig R out hout)

theorem nmGo_ne_error_of {α : Type} {iter : α → Except NMErr (IterOut α)}
    {maxIter : ℕ} {tol : ℚ} {debug : Bool} (P : α → Prop)
    (hstep : ∀ x, P x → ∃ out, iter x = Except.ok out ∧ P out.R) :
    ∀ (fuel : ℕ) (R : α) (count : ℕ) (eps : ℚ) (last : Option (α × α))
      (ftr dtr : List α),
      maxIter ≤ fuel + count → (last = none → tol ≤ eps) → P R →
      ∀ e, nmGo iter maxIter tol debug fuel R count eps last ftr dtr
        ≠ NMResult.error e := by
  intro fuel
  induction fuel with
  | zero =>
    intro R count eps last ftr dtr hfc hlast hP e
    by_cases hlt : eps < tol
    · rcases last with _ | ⟨fv, dv⟩
      · exact absurd (hlast rfl) (not_le.mpr hlt)
      · simp only [nmGo, if_pos hlt]
        simp
    · simp only [nmGo, if_neg hlt, if_pos (show maxIter ≤ count + 1 by omega)]
      simp
  | succ fuel ih =>
    intro R count eps last ftr dtr hfc hlast hP e
    by_cases hlt : eps < tol
    · rcases last with _ | ⟨fv, dv⟩
      · exact absurd (hlast rfl) (not_le.mpr hlt)
      · simp only [nmGo, if_pos hlt]
        simp
    · by_cases habort : maxIter ≤ count + 1
      · simp only [nmGo, if_neg hlt, if_pos habort]
        simp
      · obtain ⟨out, hout, hPout⟩ := hstep R hP
        have hstep2 : nmGo iter maxIter tol debug (fuel + 1) R count eps last ftr dtr
            = nmGo iter maxIter tol debug fuel out.R (count + 1) out.eps
                (some (out.fv, out.dv))
                (if debug then out.fv :: ftr else ftr)
                (if debug then out.dv :: dtr else dtr) := by
          simp only [nmGo, if_neg hlt, if_neg habort, hout]
        rw [hstep2]
        exact ih out.R (count + 1) out.eps (some (out.fv, out.dv)) _ _
          (by omega) (by intro hc; cases hc) hPout e

theorem nmGo_done_char {α : Type} {iter : α → Except NMErr (IterOut α)}
    {maxIter : ℕ} {tol : ℚ} {debug : Bool}
    (stepF : α → α) (metricF : α → ℚ) (fF dF : α → α)
    (hchar : ∀ x out, iter x = Except.ok out →
      out = ⟨stepF x, metricF x, fF x, dF x⟩)
    (seq : ℕ → α) (hseq : ∀ n, seq (n + 1) = stepF (seq n)) :
    ∀ (fuel k : ℕ), 1 ≤ k →
    ∀ {ftr dtr : List α} {R1 : α} {c : ℕ} {e : ℚ} {fv dv : α} {ft dt : List α},
      ftr = (if debug then ((List.range k).map (fun i => fF (seq i))).reverse
        else []) →
      dtr = (if debug then ((List.range k).map (fun i => dF (seq i))).reverse
        else []) →
      nmGo iter maxIter tol debug fuel (seq k) k (metricF (seq (k - 1)))
          (some (fF (seq (k - 1)), dF (seq (k - 1)))) ftr dtr
        = NMResult.done R1 c e fv dv ft dt →
      1 ≤ c ∧ R1 = seq c ∧ e = metricF (seq (c - 1)) ∧
      fv = fF (seq (c - 1)) ∧ dv = dF (seq (c - 1)) ∧
      ft = (if debug then (List.range c).map (fun i => fF (seq i)) else []) ∧
      dt = (if debug then (List.range c).map (fun i => dF (seq i)) else []) := by
  intro fuel
  induction fuel with
  | zero =>
    intro k hk ftr dtr R1 c e fv dv ft dt hftr hdtr h
    simp only [nmGo] at h
    split at h
    · injection h with hR hc he hfv hdv hft hdt
      subst hc
      refine ⟨hk, hR.symm, he.symm, hfv.symm, hdv.symm, ?_, ?_⟩
      · rw [← hft, hftr]
        cases debug <;> simp
      · rw [← hdt, hdtr]
        cases debug <;> simp
    · split at h
      · cases h
      · cases h
  | succ fuel ih =>
    intro k hk ftr dtr R1 c e fv dv ft dt hftr hdtr h
    simp only [nmGo] at h
    split at h
    · injection h with hR hc he hfv hdv hft hdt
      subst hc
      refine ⟨hk, hR.symm, he.symm, hfv.symm, hdv.symm, ?_, ?_⟩
      · rw [← hft, hftr]
        cases debug <;> simp
      · rw [← hdt, hdtr]
        cases debug <;> simp
    · split at h
      · cases h
      · rcases hiter : iter (seq k) with err | out
        · simp only [hiter] at h
          cases h
        · have hiter2 : iter (seq k) = Except.ok
              ⟨stepF (seq k), metricF (seq k), fF (seq k), dF (seq k)⟩ := by
            rw [hiter]
            exact congrArg Except.ok (hchar _ _ hiter)
          simp only [hiter2] at h
          rw [← hseq k] at h
          have hftr2 : (if debug then fF (seq k) :: ftr else ftr)
              = (if debug
                then ((List.range (k + 1)).map (fun i => fF (seq i))).reverse
                else []) := by
            subst hftr
            cases debug <;> simp [List.range_succ]
          have hdtr2 : (if debug then dF (seq k) :: dtr else dtr)
              = (if debug
                then ((List.range (k + 1)).map (fun i => dF (seq i))).reverse
                else []) := by
            subst hdtr
            cases debug <;> simp [List.range_succ]
          exact @ih (k + 1) (by omega) _ _ R1 c e fv dv ft dt hftr2 hdtr2 h

theorem vecIterate_ok_eps {f fprime : List ℚ → List ℚ} {R : List ℚ}
    {out : IterOut (List ℚ)}
    (h : vecIterate f fprime R = Except.ok out) :
    out.eps = infNorm (List.zipWith (fun a b => a - b) out.R R) ∧
    List.zipWith (fun a b => a - b) out.R R ≠ [] := by
  obtain ⟨hout, hne⟩ := vecIterate_ok_elim h
  subst hout
  exact ⟨rfl, hne⟩

theorem vecIterate_total {f fprime : List ℚ → List ℚ}
    (hf : ∀ v, (f v).length = v.length)
    (hfp : ∀ v, (fprime v).length = v.length) :
    ∀ v : List ℚ, v ≠ [] →
      ∃ out, vecIterate f fprime v = Except.ok out ∧ out.R ≠ [] := by
  intro v hv
  have hvlen : v.length ≠ 0 := fun h0 => hv (List.length_eq_zero.mp h0)
  have hR2len : (List.zipWith (fun dvi ri => if dvi ≤ 0 then ri * (1 / 2) + ri else ri)
      (fprime v)
      (List.zipWith (fun a b => a + b)
        (List.zipWith (fun a b => -a / b) (f v) (fprime v)) v)).length = v.length := by
    simp [List.length_zipWith, hf, hfp]
  have hdlen : (List.zipWith (fun a b => a - b)
      (List.zipWith (fun dvi ri => if dvi ≤ 0 then ri * (1 / 2) + ri else ri)
        (fprime v)
        (List.zipWith (fun a b => a + b)
          (List.zipWith (fun a b => -a / b) (f v) (fprime v)) v)) v).length
      = v.length := by
    simp [List.length_zipWith, hf, hfp]
  have hne : ¬((List.zipWith (fun a b => a - b)
      (List.zipWith (fun dvi ri => if dvi ≤ 0 then ri * (1 / 2) + ri else ri)
        (fprime v)
        (List.zipWith (fun a b => a + b)
          (List.zipWith (fun a b => -a / b) (f v) (fprime v)) v)) v).isEmpty
        = true) := by
    intro hemp
    rw [List.isEmpty_iff] at hemp
    rw [hemp] at hdlen
    exact hvlen ((List.length_nil ▸ hdlen).symm)
  refine ⟨⟨List.zipWith (fun dvi ri => if dvi ≤ 0 then ri * (1 / 2) + ri else ri)
      (fprime v)
      (List.zipWith (fun a b => a + b)
        (List.zipWith (fun a b => -a / b) (f v) (fprime v)) v),
    infNorm (List.zipWith (fun a b => a - b)
      (List.zipWith (fun dvi ri => if dvi ≤ 0 then ri * (1 / 2) + ri else ri)
        (fprime v)
        (List.zipWith (fun a b => a + b)
          (List.zipWith (fun a b => -a / b) (f v) (fprime v)) v)) v),
    f v, fprime v⟩, ?_, ?_⟩
  · simp only [vecIterate]
    rw [if_neg hne]
  · intro hR2nil
    have hR2nil2 : List.zipWith (fun dvi ri => if dvi ≤ 0 then ri * (1 / 2) + ri else ri)
        (fprime v)
        (List.zipWith (fun a b => a + b)
          (List.zipWith (fun a b => -a / b) (f v) (fprime v)) v) = [] := hR2nil
    rw [hR2nil2] at hR2len
    exact hvlen ((List.length_nil ▸ hR2len).symm)

/-! ## Solver claims -/

/-- C1 counterexample: on a *scalar* state whose derivative is non-positive
(here f ≡ 1, f′ ≡ −1 at R = 1), the iteration does not produce the damped
value `1.5·(R − f/f′) = 3`; the damping line indexes into a scalar and the
iteration raises a `TypeError` instead, so the claim's "scalar or vector"
quantification fails on scalars. -/
theorem scalar_damping_raises_ce :
    scalarIterate (fun _ => (1 : ℚ)) (fun _ => (-1 : ℚ)) 1
      = Except.error NMErr.typeErrorScalarIndex ∧
    ∀ out : IterOut ℚ, scalarIterate (fun _ => (1 : ℚ)) (fun _ => (-1 : ℚ)) 1
      ≠ Except.ok out := by
  have h : scalarIterate (fun _ => (1 : ℚ)) (fun _ => (-1 : ℚ)) 1
      = Except.error NMErr.typeErrorScalarIndex :=
    scalarIterate_nonpos_eq (by norm_num)
  refine ⟨h, fun out hok => ?_⟩
  rw [h] at hok
  cases hok

/-- C1 (amended): on a vector state, each iteration computes the raw
Newton step `Rnext[i] = R[i] − fv[i]/dv[i]` element-wise and replaces the
result by `1.5` times the already-computed raw step exactly at the indices
with `dv[i] ≤ 0`, keeping the undamped step at every index with positive
derivative; on a scalar state the undamped step `R − fv/dv` is kept when
the derivative is positive, and the iteration raises instead of damping
when the derivative is non-positive. -/
theorem damping_rule_amended :
    (∀ (f fprime : List ℚ → List ℚ) (R : List ℚ) (out : IterOut (List ℚ))
      (i : ℕ) (Ri fvi dvi : ℚ),
      vecIterate f fprime R = Except.ok out →
      R[i]? = some Ri → (f R)[i]? = some fvi → (fprime R)[i]? = some dvi →
      out.R[i]? = some (if dvi ≤ 0
        then 3 / 2 * (Ri - fvi / dvi) else Ri - fvi / dvi)) ∧
    (∀ (f fprime : ℚ → ℚ) (R : ℚ), 0 < fprime R →
      ∃ out, scalarIterate f fprime R = Except.ok out ∧
        out.R = R - f R / fprime R) ∧
    (∀ (f fprime : ℚ → ℚ) (R : ℚ), fprime R ≤ 0 →
      ∃ err, scalarIterate f fprime R = Except.error err) := by
  refine ⟨?_, ?_, ?_⟩
  · intro f fprime R out i Ri fvi dvi hok hR hf hd
    obtain ⟨hout, -⟩ := vecIterate_ok_elim hok
    subst hout
    simp only [List.getElem?_zipWith, hR, hf, hd]
    by_cases hdvi : dvi ≤ 0
    · rw [if_pos hdvi, if_pos hdvi]
      exact congrArg some (by ring)
    · rw [if_neg hdvi, if_neg hdvi]
      exact congrArg some (by ring)
  · intro f fprime R h
    refine ⟨_, scalarIterate_pos_eq h, ?_⟩
    show -f R / fprime R + R = R - f R / fprime R
    ring
  · intro f fprime R h
    exact ⟨_, scalarIterate_nonpos_eq h⟩

unseal Rat.add Rat.sub Rat.mul Rat.inv in
/-- Witness for C1's amended damping rule: a concrete two-element batch
with dv = [−1, 2]; the raw steps are [2, −1] and only index 0 (where
dv ≤ 0) is replaced by 1.5·2 = 3. -/
theorem damping_rule_amended_witness :
    vecIterate (fun _ => [1, 4]) (fun _ => [(-1 : ℚ), 2]) [1, 1]
      = Except.ok ⟨[3, -1], 2, [1, 4], [-1, 2]⟩ ∧
    (⟨[3, -1], 2, [1, 4], [-1, 2]⟩ : IterOut (List ℚ)).R[0]?
      = some (if (-1 : ℚ) ≤ 0 then (3 / 2 * (1 - 1 / (-1)) : ℚ)
          else 1 - 1 / (-1)) := by
  have hok : vecIterate (fun _ => [1, 4]) (fun _ => [(-1 : ℚ), 2]) [1, 1]
      = Except.ok ⟨[3, -1], 2, [1, 4], [-1, 2]⟩ := by
    simp only [vecIterate]
    norm_num [infNorm]
  exact ⟨hok, damping_rule_amended.1 (fun _ => [1, 4]) (fun _ => [(-1 : ℚ), 2])
    [1, 1] ⟨[3, -1], 2, [1, 4], [-1, 2]⟩ 0 1 1 (-1) hok rfl rfl rfl⟩

/-- C2: the per-iteration convergence metric is `|Rnext − R_old| / |R_old|`
for a scalar state and the maximum of `|Rnext_i − R_old_i|` over the
elements for a vector state, and the loop exits in the converged state
exactly when the metric is below `tol`: with a recorded residual pair, a
loop entry with `eps < tol` returns the converged 7-tuple immediately, and
every converged result carries a final metric `< tol`. -/
theorem convergence_metric_and_stop :
    (∀ (f fprime : ℚ → ℚ) (R : ℚ) (out : IterOut ℚ),
      scalarIterate f fprime R = Except.ok out →
      out.eps = |out.R - R| / |R|) ∧
    (∀ (f fprime : List ℚ → List ℚ) (R : List ℚ) (out : IterOut (List ℚ)),
      vecIterate f fprime R = Except.ok out →
      ((∀ (i : ℕ) (ai bi : ℚ), out.R[i]? = some ai → R[i]? = some bi →
        |ai - bi| ≤ out.eps) ∧
       (∃ (i : ℕ) (ai bi : ℚ), out.R[i]? = some ai ∧ R[i]? = some bi ∧
        |ai - bi| = out.eps))) ∧
    (∀ (α : Type) (iter : α → Except NMErr (IterOut α)) (maxIter : ℕ) (tol : ℚ)
      (debug : Bool) (fuel : ℕ) (R : α) (count : ℕ) (eps : ℚ) (fv dv : α)
      (ftr dtr : List α), eps < tol →
      nmGo iter maxIter tol debug fuel R count eps (some (fv, dv)) ftr dtr
        = NMResult.done R count eps fv dv ftr.reverse dtr.reverse) ∧
    (∀ (α : Type) (iter : α → Except NMErr (IterOut α)) (maxIter : ℕ) (tol : ℚ)
      (debug : Bool) (fuel : ℕ) (R : α) (count : ℕ) (eps : ℚ)
      (last : Option (α × α)) (ftr dtr : List α) (R1 : α) (c : ℕ) (e : ℚ)
      (fv dv : α) (ft dt : List α),
      nmGo iter maxIter tol debug fuel R count eps last ftr dtr
        = NMResult.done R1 c e fv dv ft dt → e < tol) := by
  refine ⟨?_, ?_, ?_, ?_⟩
  · intro f fprime R out hok
    obtain ⟨-, hout⟩ := scalarIterate_ok_elim hok
    subst hout
    show |(-f R / fprime R + R - R) / R| = |(-f R / fprime R + R) - R| / |R|
    rw [abs_div]
  · intro f fprime R out hok
    obtain ⟨heps, hne⟩ := vecIterate_ok_eps hok
    constructor
    · intro i ai bi hai hbi
      have hdi : (List.zipWith (fun a b => a - b) out.R R)[i]? = some (ai - bi) := by
        simp only [List.getElem?_zipWith, hai, hbi]
      rw [heps]
      exact abs_le_infNorm (List.mem_iff_getElem?.mpr ⟨i, hdi⟩)
    · obtain ⟨x, hxmem, hx⟩ := infNorm_attained hne
      obtain ⟨i, hi⟩ := List.mem_iff_getElem?.mp hxmem
      rw [List.getElem?_zipWith] at hi
      rcases hR2 : out.R[i]? with _ | ai
      · simp only [hR2] at hi
        exact Option.noConfusion hi
      · rcases hRi : R[i]? with _ | bi
        · simp only [hR2, hRi] at hi
          exact Option.noConfusion hi
        · simp only [hR2, hRi] at hi
          injection hi with hx2
          refine ⟨i, ai, bi, hR2, hRi, ?_⟩
          rw [hx2, heps]
          exact hx
  · intro α iter maxIter tol debug fuel R count eps fv dv ftr dtr hlt
    exact nmGo_stop_now iter maxIter tol debug fuel R count eps fv dv ftr dtr hlt
  · intro α iter maxIter tol debug fuel R count eps last ftr dtr R1 c e fv dv ft dt h
    exact nmGo_done_eps_lt h

/-- Witness for C2 on the scalar metric conjunct, at f ≡ 1, f′ ≡ 1,
R = 1. -/
theorem convergence_metric_and_stop_witness :
    ∃ out : IterOut ℚ, scalarIterate (fun _ => (1 : ℚ)) (fun _ => (1 : ℚ)) 1
        = Except.ok out ∧ out.eps = |out.R - 1| / |1| := by
  have hok := @scalarIterate_pos_eq (fun _ => (1 : ℚ)) (fun _ => (1 : ℚ)) 1
    (by norm_num)
  exact ⟨_, hok, convergence_metric_and_stop.1 _ _ 1 _ hok⟩

/-- C3: when the objective/derivative pair never brings the metric below
`tol` (every iteration's metric stays at or above a `tol` that is at most
the initial sentinel 1), the solver returns, by a normal return, the
current estimate with an iteration count of exactly `maxIter`, in the
aborted form that no converged 7-tuple equals. -/
theorem abort_at_max_iter {α : Type} (iter : α → Except NMErr (IterOut α))
    (R0 : α) (maxIter : ℕ) (tol : ℚ) (debug : Bool)
    (htotal : ∀ x : α, ∃ out, iter x = Except.ok out)
    (hbig : ∀ x out, iter x = Except.ok out → tol ≤ out.eps)
    (htol : tol ≤ 1) (hmax : 1 ≤ maxIter) :
    ∃ Rf, newtonsMethod iter R0 maxIter tol debug = NMResult.aborted Rf maxIter ∧
      ∀ (R1 : α) (c : ℕ) (e : ℚ) (fv dv : α) (ft dt : List α),
        NMResult.aborted Rf maxIter ≠ NMResult.done R1 c e fv dv ft dt := by
  obtain ⟨Rf, h⟩ := @nmGo_aborts_of α iter maxIter tol debug htotal hbig
    maxIter R0 0 1 none [] [] (by omega) (by omega) htol
  refine ⟨Rf, h, ?_⟩
  intro R1 c e fv dv ft dt hcon
  cases hcon

/-- Witness for C3: an adversarial pass whose metric is always 1 with
tol = 1/2 and maxIter = 3 aborts at exactly count 3. -/
theorem abort_at_max_iter_witness :
    ((1 : ℚ) / 2 ≤ 1 ∧ 1 ≤ 3) ∧
    ∃ Rf, newtonsMethod (fun x : ℚ => Except.ok ⟨x, 1, x, x⟩) 0 3 (1 / 2) false
        = NMResult.aborted Rf 3 ∧
      ∀ (R1 : ℚ) (c : ℕ) (e : ℚ) (fv dv : ℚ) (ft dt : List ℚ),
        NMResult.aborted Rf 3 ≠ NMResult.done R1 c e fv dv ft dt :=
  ⟨⟨by norm_num, by norm_num⟩,
    abort_at_max_iter (fun x : ℚ => Except.ok ⟨x, 1, x, x⟩) 0 3 (1 / 2) false
      (fun x => ⟨⟨x, 1, x, x⟩, rfl⟩)
      (fun x out hout => by
        injection hout with h2
        rw [← h2]
        norm_num)
      (by norm_num) (by norm_num)⟩

unseal Rat.add Rat.sub Rat.mul Rat.inv in
/-- C4 counterexample: the run with residual ≡ 1, derivative ≡ −1, scalar
guess R₀ = 1, maxIter = 1000, tol = 1/1000 terminates by raising the
`TypeError` from the scalar damping line, not by returning a value, so
"never by raising" fails as universally stated. -/
theorem never_raises_ce :
    newtons_method_scalar (fun _ => 1) (fun _ => (-1)) 1 1000 (1 / 1000) false
      = NMResult.error NMErr.typeErrorScalarIndex := by
  decide

/-- C4 (amended): `newtons_method` terminates by returning a value — never
by raising — on every vector run whose initial batch is nonempty, whose
residual and derivative suppliers preserve the batch length, and whose
`tol` does not exceed the initial sentinel metric 1; and on every scalar
run with `tol ≤ 1` whose derivative supplier is strictly positive.  (A
scalar run that meets a non-positive derivative raises the damping
`TypeError`, and `tol > 1` raises a `NameError` on the immediate-exit
path.) -/
theorem no_raise_amended :
    (∀ (f fprime : List ℚ → List ℚ) (R0 : List ℚ) (maxIter : ℕ) (tol : ℚ)
      (debug : Bool), tol ≤ 1 → R0 ≠ [] →
      (∀ v, (f v).length = v.length) → (∀ v, (fprime v).length = v.length) →
      ∀ e, newtons_method_vec f fprime R0 maxIter tol debug
        ≠ NMResult.error e) ∧
    (∀ (f fprime : ℚ → ℚ) (R0 : ℚ) (maxIter : ℕ) (tol : ℚ) (debug : Bool),
      tol ≤ 1 → (∀ x, 0 < fprime x) →
      ∀ e, newtons_method_scalar f fprime R0 maxIter tol debug
        ≠ NMResult.error e) := by
  constructor
  · intro f fprime R0 maxIter tol debug htol hR0 hf hfp e
    have hstep : ∀ v : List ℚ, v ≠ [] →
        ∃ out, vecIterate f fprime v = Except.ok out ∧ out.R ≠ [] :=
      vecIterate_total hf hfp
    exact nmGo_ne_error_of (fun v => v ≠ []) hstep maxIter R0 0 1 none [] []
      (by omega) (fun _ => htol) hR0 e
  · intro f fprime R0 maxIter tol debug htol hpos e
    have hstep : ∀ x : ℚ, True →
        ∃ out, scalarIterate f fprime x = Except.ok out ∧ True :=
      fun x _ => ⟨_, scalarIterate_pos_eq (hpos x), trivial⟩
    exact nmGo_ne_error_of (fun _ => True) hstep maxIter R0 0 1 none [] []
      (by omega) (fun _ => htol) trivial e

/-- Witness for C4's amended no-raise law: a concrete one-element vector
run returns normally (in particular it is not any error). -/
theorem no_raise_amended_witness :
    ((1 : ℚ) ≤ 1 ∧ ([1] : List ℚ) ≠ []) ∧
    newtons_method_vec (fun v => v.map (fun _ => 1))
        (fun v => v.map (fun _ => 1)) [1] 2 1 false
      ≠ NMResult.error NMErr.outOfFuel :=
  ⟨⟨by norm_num, by simp⟩,
    no_raise_amended.1 (fun v => v.map (fun _ => 1)) (fun v => v.map (fun _ => 1))
      [1] 2 1 false (by norm_num) (by simp) (fun v => by simp) (fun v => by simp)
      NMErr.outOfFuel⟩

unseal Rat.add Rat.sub Rat.mul Rat.inv in
/-- C6 counterexample: the aborted run with residual ≡ 1, derivative ≡ 1,
R₀ = 1, maxIter = 2, tol = 1/2 returns only the pair (R, count) = (0, 2):
no final ε, residual, derivative, or trace accompanies an aborted
termination, and the result equals no converged 7-tuple. -/
theorem aborted_return_shape_ce :
    newtons_method_scalar (fun _ => 1) (fun _ => 1) 1 2 (1 / 2) false
      = NMResult.aborted 0 2 ∧
    ∀ (R1 : ℚ) (c : ℕ) (e : ℚ) (fv dv : ℚ) (ft dt : List ℚ),
      NMResult.aborted (0 : ℚ) 2 ≠ NMResult.done R1 c e fv dv ft dt := by
  refine ⟨by decide, ?_⟩
  intro R1 c e fv dv ft dt h
  cases h

/-- C6 (amended): whenever a `newtons_method` run — scalar or vector —
terminates in the *converged* state, the returned 7-tuple consists of
exactly the data the claim lists: the final estimate (the c-th iterate of
the solver's step map), the iteration count c ≥ 1, the final convergence
metric, the final residual and derivative values (evaluated at the
previous iterate), and — when tracing was requested — the ordered
per-iteration residual and derivative traces (the trace lists are empty
when tracing was off).  An *aborted* termination instead returns only the
estimate/count pair (`aborted_return_shape_ce`). -/
theorem converged_return_contract :
    (∀ (f fprime : ℚ → ℚ) (R0 : ℚ) (maxIter : ℕ) (tol : ℚ) (debug : Bool)
      (R1 : ℚ) (c : ℕ) (e : ℚ) (fv dv : ℚ) (ft dt : List ℚ),
      newtons_method_scalar f fprime R0 maxIter tol debug
        = NMResult.done R1 c e fv dv ft dt →
      1 ≤ c ∧ R1 = newtonSeq f fprime R0 c ∧
      e = |((newtonSeq f fprime R0 c - newtonSeq f fprime R0 (c - 1)) /
        newtonSeq f fprime R0 (c - 1))| ∧
      fv = f (newtonSeq f fprime R0 (c - 1)) ∧
      dv = fprime (newtonSeq f fprime R0 (c - 1)) ∧
      ft = (if debug
        then (List.range c).map (fun i => f (newtonSeq f fprime R0 i))
        else []) ∧
      dt = (if debug
        then (List.range c).map (fun i => fprime (newtonSeq f fprime R0 i))
        else [])) ∧
    (∀ (f fprime : List ℚ → List ℚ) (R0 : List ℚ) (maxIter : ℕ) (tol : ℚ)
      (debug : Bool) (R1 : List ℚ) (c : ℕ) (e : ℚ) (fv dv : List ℚ)
      (ft dt : List (List ℚ)),
      newtons_method_vec f fprime R0 maxIter tol debug
        = NMResult.done R1 c e fv dv ft dt →
      1 ≤ c ∧ R1 = vecSeq f fprime R0 c ∧
      e = infNorm (List.zipWith (fun a b => a - b) (vecSeq f fprime R0 c)
        (vecSeq f fprime R0 (c - 1))) ∧
      fv = f (vecSeq f fprime R0 (c - 1)) ∧
      dv = fprime (vecSeq f fprime R0 (c - 1)) ∧
      ft = (if debug
        then (List.range c).map (fun i => f (vecSeq f fprime R0 i))
        else []) ∧
      dt = (if debug
        then (List.range c).map (fun i => fprime (vecSeq f fprime R0 i))
        else [])) := by
  constructor
  · intro f fprime R0 maxIter tol debug R1 c e fv dv ft dt hrun
    unfold newtons_method_scalar newtonsMethod at hrun
    cases maxIter with
    | zero =>
      simp only [nmGo] at hrun
      split at hrun
      · cases hrun
      · rw [if_pos (by omega)] at hrun
        cases hrun
    | succ m =>
      simp only [nmGo] at hrun
      split at hrun
      · cases hrun
      · split at hrun
        · cases hrun
        · rcases hiter : scalarIterate f fprime R0 with err | out
          · simp only [hiter] at hrun
            cases hrun
          · have hiter2 : scalarIterate f fprime R0 = Except.ok
                ⟨-f R0 / fprime R0 + R0, |((-f R0 / fprime R0 + R0 - R0) / R0)|,
                  f R0, fprime R0⟩ := by
              rw [hiter]
              exact congrArg Except.ok (scalarIterate_ok_elim hiter).2
            simp only [hiter2] at hrun
            have htr1 : (if debug then f R0 :: ([] : List ℚ) else [])
                = (if debug
                  then ((List.range 1).map
                    (fun i => f (newtonSeq f fprime R0 i))).reverse
                  else []) := by
              cases debug <;> rfl
            have htr2 : (if debug then fprime R0 :: ([] : List ℚ) else [])
                = (if debug
                  then ((List.range 1).map
                    (fun i => fprime (newtonSeq f fprime R0 i))).reverse
                  else []) := by
              cases debug <;> rfl
            obtain ⟨h1, h2, h3, h4, h5, h6, h7⟩ :=
              nmGo_done_char (fun x => -f x / fprime x + x)
                (fun x => |((-f x / fprime x + x - x) / x)|) f fprime
                (fun x out2 hok => (scalarIterate_ok_elim hok).2)
                (newtonSeq f fprime R0) (fun n => rfl) m 1 (le_refl 1)
                htr1 htr2 hrun
            have hc1 : c - 1 + 1 = c := by omega
            refine ⟨h1, h2, ?_, h4, h5, h6, h7⟩
            have h3b : e = |((newtonSeq f fprime R0 (c - 1 + 1) -
                newtonSeq f fprime R0 (c - 1)) / newtonSeq f fprime R0 (c - 1))| :=
              h3
            rw [hc1] at h3b
            exact h3b
  · intro f fprime R0 maxIter tol debug R1 c e fv dv ft dt hrun
    unfold newtons_method_vec newtonsMethod at hrun
    cases maxIter with
    | zero =>
      simp only [nmGo] at hrun
      split at hrun
      · cases hrun
      · rw [if_pos (by omega)] at hrun
        cases hrun
    | succ m =>
      simp only [nmGo] at hrun
      split at hrun
      · cases hrun
      · split at hrun
        · cases hrun
        · rcases hiter : vecIterate f fprime R0 with err | out
          · simp only [hiter] at hrun
            cases hrun
          · have hiter2 : vecIterate f fprime R0 = Except.ok
                ⟨vecStep f fprime R0,
                  infNorm (List.zipWith (fun a b => a - b)
                    (vecStep f fprime R0) R0),
                  f R0, fprime R0⟩ := by
              rw [hiter]
              exact congrArg Except.ok (vecIterate_ok_elim hiter).1
            simp only [hiter2] at hrun
            have htr1 : (if debug then f R0 :: ([] : List (List ℚ)) else [])
                = (if debug
                  then ((List.range 1).map
                    (fun i => f (vecSeq f fprime R0 i))).reverse
                  else []) := by
              cases debug <;> rfl
            have htr2 : (if debug then fprime R0 :: ([] : List (List ℚ)) else [])
                = (if debug
                  then ((List.range 1).map
                    (fun i => fprime (vecSeq f fprime R0 i))).reverse
                  else []) := by
              cases debug <;> rfl
            obtain ⟨h1, h2, h3, h4, h5, h6, h7⟩ :=
              nmGo_done_char (vecStep f fprime)
                (fun v => infNorm (List.zipWith (fun a b => a - b)
                  (vecStep f fprime v) v))
                f fprime
                (fun v out2 hok => (vecIterate_ok_elim hok).1)
                (vecSeq f fprime R0) (fun n => rfl) m 1 (le_refl 1)
                htr1 htr2 hrun
            have hc1 : c - 1 + 1 = c := by omega
            refine ⟨h1, h2, ?_, h4, h5, h6, h7⟩
            have h3b : e = infNorm (List.zipWith (fun a b => a - b)
                (vecSeq f fprime R0 (c - 1 + 1)) (vecSeq f fprime R0 (c - 1))) :=
              h3
            rw [hc1] at h3b
            exact h3b

unseal Rat.add Rat.sub Rat.mul Rat.inv in
/-- Witness for C6's converged return contract: the scalar run with
residual ≡ 0, derivative ≡ 1, R₀ = 1, maxIter = 5, tol = 1/2, tracing on
converges after one iteration to the 7-tuple (1, 1, 0, 0, 1, [0], [1]). -/
theorem converged_return_contract_witness :
    1 ≤ 1 ∧ (1 : ℚ) = newtonSeq (fun _ => 0) (fun _ => 1) 1 1 ∧
    (0 : ℚ) = |((newtonSeq (fun _ => 0) (fun _ => 1) 1 1 -
      newtonSeq (fun _ => 0) (fun _ => 1) 1 0) /
      newtonSeq (fun _ => 0) (fun _ => 1) 1 0)| ∧
    (0 : ℚ) = 0 ∧ (1 : ℚ) = 1 ∧
    ([0] : List ℚ) = (List.range 1).map (fun _ => (0 : ℚ)) ∧
    ([1] : List ℚ) = (List.range 1).map (fun _ => (1 : ℚ)) :=
  converged_return_contract.1 (fun _ => 0) (fun _ => 1) 1 5 (1 / 2) true
    1 1 0 0 1 [0] [1] (by decide)

/-- C10: with a scalar state and a non-positive derivative, the damping
step's `R[ind]` indexes into a scalar and the iteration raises a
`TypeError`: every loop-body pass whose derivative value is ≤ 0 errors,
and a scalar solve whose initial derivative is non-positive (with
`tol ≤ 1` so the loop runs and `maxIter ≥ 2` so it is not cut off first)
raises instead of returning; a scalar solve is only exception-free under
the unstated precondition that the derivative stays positive. -/
theorem scalar_nonpositive_derivative_raises :
    (∀ (f fprime : ℚ → ℚ) (R : ℚ), fprime R ≤ 0 →
      scalarIterate f fprime R = Except.error NMErr.typeErrorScalarIndex) ∧
    (∀ (f fprime : ℚ → ℚ) (R0 : ℚ) (maxIter : ℕ) (tol : ℚ) (debug : Bool),
      fprime R0 ≤ 0 → tol ≤ 1 → 2 ≤ maxIter →
      newtons_method_scalar f fprime R0 maxIter tol debug
        = NMResult.error NMErr.typeErrorScalarIndex) := by
  constructor
  · intro f fprime R h
    exact scalarIterate_nonpos_eq h
  · intro f fprime R0 maxIter tol debug h htol hmax
    obtain ⟨m, rfl⟩ : ∃ m, maxIter = m + 1 := ⟨maxIter - 1, by omega⟩
    unfold newtons_method_scalar newtonsMethod
    simp only [nmGo]
    rw [if_neg (not_lt.mpr htol), if_neg (show ¬(m + 1 ≤ 0 + 1) by omega),
      scalarIterate_nonpos_eq h]

/-- Witness for C10's solve-level raise, at f ≡ 2, f′ ≡ −1, R₀ = 5,
maxIter = 1000, tol = 1/1000. -/
theorem scalar_nonpositive_derivative_raises_witness :
    ((-1 : ℚ) ≤ 0 ∧ (1 : ℚ) / 1000 ≤ 1 ∧ 2 ≤ 1000) ∧
    newtons_method_scalar (fun _ => 2) (fun _ => (-1)) 5 1000 (1 / 1000) false
      = NMResult.error NMErr.typeErrorScalarIndex :=
  ⟨⟨by norm_num, by norm_num, by norm_num⟩,
    scalar_nonpositive_derivative_raises.2 (fun _ => 2) (fun _ => (-1)) 5 1000
      (1 / 1000) false (by norm_num) (by norm_num) (by norm_num)⟩
